import Mathlib

/-!
# Embedded controller pipeline: a verification development

Shallow embedding of `embedded_controller.c` (ring-buffer log, CRC-8,
moving-average filter, ADC-to-duty mapping) and proofs of its documented
properties.

Conventions of the embedding

* C strings are lists of characters; the text denoted by a `char` array is
  the run of characters before its first NUL (`cstr`).
* The `int` fields `head`, `count`, `idx`, `filled` are natural numbers: every
  operation keeps them within `0 .. 16`, so no signed overflow or negative
  remainder can occur.
* `double` arithmetic of the filter is taken as exact, over `ℚ`.
* `uint8_t` / `uint16_t` / `unsigned` values are natural numbers, with an
  explicit reduction modulo `2 ^ w` wherever the C code narrows or can wrap.
* Library calls whose result the program only passes on are parameters: the
  function `sine` for `sin`, the value `rnd` returned by one call of `rand()`,
  and the function `fmt` for the `snprintf` call that formats a status line.
-/

namespace EmbeddedController

/-! ## Constants -/

/-- The window size of the filter, `#define FILTER_LEN 8`. -/
def FILTER_LEN : Nat := 8

/-- The capacity of the log, `#define LOG_CAP 16`. -/
def LOG_CAP : Nat := 16

/-- The size of one log line buffer, `sizeof(r->buf[idx])`, from `char buf[LOG_CAP][128]`. -/
def LINE_SIZE : Nat := 128

/-! ## C strings -/

/-- The string terminator `'\0'`. -/
def NUL : Char := Char.ofNat 0

/-- The text denoted by a character array: the characters before the first NUL. -/
def cstr (a : List Char) : List Char :=
  a.takeWhile (fun c => c != NUL)

/-- The library call `strncpy(dst, src, n)`: the first `n` bytes of `dst` become the first `n`
characters of the string `src`, padded with NULs up to `n` when the string is
shorter; the bytes of `dst` from `n` on are left alone. -/
def strncpy (dst src : List Char) (n : Nat) : List Char :=
  let s := (cstr src).take n
  s ++ List.replicate (n - s.length) NUL ++ dst.drop n

/-! ## Ring-buffer log -/

/-- The struct `ring_log_t`: `LOG_CAP` line buffers, the index of the oldest line, and the
number of lines held. -/
structure ring_log_t where
  buf : Fin LOG_CAP → List Char
  head : Nat
  count : Nat

/-- The slot index `j % LOG_CAP` as an index into `buf`. -/
def slot (j : Nat) : Fin LOG_CAP :=
  ⟨j % LOG_CAP, Nat.mod_lt j (by decide)⟩

/-- The function `log_init`: resets `head` and `count`; the line buffers keep whatever they held. -/
def log_init (r : ring_log_t) : ring_log_t :=
  { r with head := 0, count := 0 }

/-- The function `log_push`: copies at most 127 characters of `s` into the slot after the
newest line, terminates it, and either grows `count` or advances `head`. -/
def log_push (r : ring_log_t) (s : List Char) : ring_log_t :=
  let idx := slot (r.head + r.count)
  let line := (strncpy (r.buf idx) s (LINE_SIZE - 1)).set (LINE_SIZE - 1) NUL
  let buf := Function.update r.buf idx line
  if r.count < LOG_CAP then
    { buf := buf, head := r.head, count := r.count + 1 }
  else
    { buf := buf, head := (r.head + 1) % LOG_CAP, count := r.count }

/-- The function `log_dump`: the lines written by `puts`, one per retained entry, starting at `head`. -/
def log_dump (r : ring_log_t) : List (List Char) :=
  (List.range r.count).map (fun i => cstr (r.buf (slot (r.head + i))))

/-- The log after pushing the entries of `es`, in order. -/
def log_push_all (r : ring_log_t) (es : List (List Char)) : ring_log_t :=
  es.foldl log_push r

/-! ## CRC-8 -/

/-- One pass of the inner loop of `crc8`: shift the 8-bit register left by one
and fold in the polynomial `0x07` when the bit shifted out was set. -/
def crc8_bit (crc : Nat) : Nat :=
  if crc &&& 0x80 ≠ 0 then ((crc <<< 1) ^^^ 0x07) % 256 else (crc <<< 1) % 256

/-- One pass of the outer loop of `crc8`: fold the byte into the register, then
run the inner loop 8 times. -/
def crc8_byte (crc byte : Nat) : Nat :=
  crc8_bit^[8] (crc ^^^ byte)

/-- The function `crc8(data, len)`: the register starts at 0 and takes in the bytes in order. -/
def crc8 (data : List Nat) : Nat :=
  data.foldl crc8_byte 0

/-! ## Moving-average filter -/

/-- The struct `movavg_t`: the window buffer of `FILTER_LEN` samples, the write cursor, the
number of filled slots, and the running sum. -/
structure movavg_t where
  buf : List ℚ
  idx : Nat
  filled : Nat
  sum : ℚ

/-- The function `movavg_init`: `memset` clears every field. -/
def movavg_init : movavg_t :=
  { buf := List.replicate FILTER_LEN 0, idx := 0, filled := 0, sum := 0 }

/-- The function `movavg_push`: the state after the push, and the value returned. -/
def movavg_push (m : movavg_t) (x : ℚ) : movavg_t × ℚ :=
  if m.filled < FILTER_LEN then
    let buf := m.buf.set m.idx x
    let sum := m.sum + x
    let idx := (m.idx + 1) % FILTER_LEN
    let filled := m.filled + 1
    ({ buf := buf, idx := idx, filled := filled, sum := sum }, sum / filled)
  else
    let sum := m.sum - m.buf.getD m.idx 0
    let buf := m.buf.set m.idx x
    let sum := sum + x
    let idx := (m.idx + 1) % FILTER_LEN
    ({ buf := buf, idx := idx, filled := m.filled, sum := sum }, sum / FILTER_LEN)

/-- The filter state after pushing the values of `xs`, in order. -/
def movavg_push_all (m : movavg_t) (xs : List ℚ) : movavg_t :=
  xs.foldl (fun m x => (movavg_push m x).1) m

/-- The values returned by the successive pushes of `xs`, in order. -/
def movavg_returns (m : movavg_t) : List ℚ → List ℚ
  | [] => []
  | x :: xs => (movavg_push m x).2 :: movavg_returns (movavg_push m x).1 xs

/-- The mean of the last `FILTER_LEN` values of `xs`, with the window sum
recomputed from scratch. -/
def window_mean (xs : List ℚ) : ℚ :=
  (xs.drop (xs.length - FILTER_LEN)).sum / FILTER_LEN

/-! ## Duty mapping -/

/-- The function `adc_to_duty`: `adc` is a `uint16_t`; the product `adc * 100u` is computed
in 32-bit `unsigned` arithmetic and the quotient is converted to `int`. -/
def adc_to_duty (adc : Nat) : Int :=
  if adc ≥ 4095 then 100 else (((adc * 100) % 2 ^ 32 / 4095 : Nat) : Int)

/-! ## CRC-8 as polynomial division over GF(2)

A polynomial over GF(2) is written as the natural number whose bit `i` is the
coefficient of `x^i`; addition of polynomials is `^^^`, multiplication by
`x^k` is multiplication by `2 ^ k`. -/

/-- The generator polynomial `x^8 + x^2 + x + 1` of the checksum: polynomial
`0x07` with its leading term written out. -/
def CRC8_POLY : Nat := 0x107

/-- The message polynomial `M(x)`: the bytes read in order, most significant
bit first, so that the first bit read has the highest degree. -/
def msg_poly (data : List Nat) : Nat :=
  data.foldl (fun acc b => acc * 256 + b) 0

/-- The product of two polynomials over GF(2) (carry-less multiplication):
`a * b = a₀ * b + x * ((a / x) * b)`. -/
def gf2_mul (a b : Nat) : Nat :=
  if a = 0 then 0 else (if a % 2 = 1 then b else 0) ^^^ 2 * gf2_mul (a / 2) b
termination_by a
decreasing_by omega

/-- Long division by the generator of a polynomial `a` of degree below
`n + 8`: from the top down, each term `x^(i + 8)` still present is cancelled
by adding `x^i` times the generator. What is left is the remainder. -/
def gf2_mod_poly : Nat → Nat → Nat
  | 0, a => a
  | n + 1, a => gf2_mod_poly n (if a.testBit (n + 8) then a ^^^ CRC8_POLY * 2 ^ n else a)

/-- The checksum as the spec words it: the remainder of `M(x) * x^8` modulo
`x^8 + x^2 + x + 1` over GF(2). -/
def crc8_spec (data : List Nat) : Nat :=
  gf2_mod_poly (8 * data.length) (msg_poly data * 2 ^ 8)

/-! ## Signal simulator -/

/-- The constant `M_PI`, as the `#define` writes it. -/
def M_PI : ℚ := 314159265358979323846 / 100000000000000000000

/-- The noise term of `simulate_adc`, `((rand() % 201) - 100) * 0.5`, for the
value `rnd` returned by `rand()`. -/
def noise (rnd : Nat) : ℚ :=
  (((((rnd % 201 : Nat) : Int) - 100 : Int)) : ℚ) * (1 / 2)

/-- The two clamping statements of `simulate_adc`:
`if (adc < 0) adc = 0; if (adc > 4095) adc = 4095;`. -/
def clamp_adc (adc : ℚ) : ℚ :=
  let adc := if adc < 0 then 0 else adc
  if adc > 4095 then 4095 else adc

/-- The conversion `(uint16_t)x` of a `double`: the fraction is discarded
(rounding toward zero) and the integer is taken as a 16-bit unsigned value.
A value outside `0 .. 65535` is undefined in C; here it wraps. -/
def double_to_u16 (x : ℚ) : Nat :=
  ((if 0 ≤ x then ⌊x⌋ else ⌈x⌉) % 2 ^ 16).toNat

/-- The function `simulate_adc`, for the library function `sine` and the
value `rnd` that its call of `rand()` returns. -/
def simulate_adc (sine : ℚ → ℚ) (t_sec : ℚ) (rnd : Nat) : Nat :=
  let freq : ℚ := 1 / 2
  let v := (1 / 2) * (1 + sine (2 * M_PI * freq * t_sec))
  let adc := v * 4095
  let adc := adc + noise rnd
  double_to_u16 (clamp_adc adc)

/-- The number of values `r` in `0 .. rand_max` with `r % 201 = c`: the weight
of the noise outcome `c` when `rand()` is uniform over `0 .. rand_max`. -/
def noise_preimages (rand_max c : Nat) : Nat :=
  Nat.count (fun r => r % 201 = c) (rand_max + 1)

/-! ## Pipeline driver -/

/-- The message bytes `msg[0..3]` of one cycle, each narrowed to `uint8_t`. -/
def frame (raw : Nat) (duty : Int) (filt_u : Nat) : List Nat :=
  [(raw >>> 8) % 256, (raw &&& 0xFF) % 256, (duty % 256).toNat, (filt_u &&& 0xFF) % 256]

/-- The advisory text pushed for a high duty: the array of the literal
`"  -> Actuator: HIGH power (example)\0"`, with its written and its implicit
terminator. -/
def ADVISORY : List Char :=
  "  -> Actuator: HIGH power (example)".toList ++ [NUL, NUL]

/-- The variables of `main` that live across cycles: the log, the filter and
the elapsed time. -/
structure driver_t where
  log : ring_log_t
  ma : movavg_t
  t : ℚ

/-- The values computed in one cycle of the loop of `main`. -/
structure cycle_t where
  raw : Nat
  filt : ℚ
  filt_u : Nat
  duty : Int
  msg : List Nat
  c : Nat
  line : List Char

/-- The values of one cycle, for the reading `raw` returned by `simulate_adc`;
`fmt` stands for the `snprintf` call that formats the status line. -/
def cycle_values (fmt : ℚ → Nat → Nat → Int → Nat → List Char) (d : driver_t) (raw : Nat) :
    cycle_t :=
  let filt := (movavg_push d.ma raw).2
  let filt_u := double_to_u16 filt
  let duty := adc_to_duty filt_u
  let msg := frame raw duty filt_u
  let c := crc8 msg
  { raw := raw, filt := filt, filt_u := filt_u, duty := duty, msg := msg, c := c,
    line := fmt d.t raw filt_u duty c }

/-- One cycle of the loop of `main`: sample, filter, map to duty, frame and
checksum, log the status line, log the advisory when `duty > 80`, advance time. -/
def loop_body (fmt : ℚ → Nat → Nat → Int → Nat → List Char) (sine : ℚ → ℚ)
    (d : driver_t) (rnd : Nat) : driver_t :=
  let raw := simulate_adc sine d.t rnd
  let v := cycle_values fmt d raw
  let log := log_push d.log v.line
  let log := if v.duty > 80 then log_push log ADVISORY else log
  { log := log, ma := (movavg_push d.ma raw).1, t := d.t + 1 / 20 }

/-- The flipping of bit `b` of the byte at position `i` of a byte sequence. -/
def flip_bit (data : List Nat) (i b : Nat) : List Nat :=
  data.set i (data.getD i 0 ^^^ 2 ^ b)

/-! ## Lemmas on C strings -/

/-- Every character of a C string differs from NUL. -/
theorem cstr_ne_nul (a : List Char) : ∀ c ∈ cstr a, (c != NUL) = true := by
  intro c hc
  unfold cstr at hc
  exact List.mem_takeWhile_imp (p := fun c => c != NUL) hc

/-- A NUL-free run followed by nothing or by a NUL denotes itself. -/
theorem cstr_append_nul (t rest : List Char) (ht : ∀ c ∈ t, (c != NUL) = true) :
    cstr (t ++ NUL :: rest) = t := by
  unfold cstr
  rw [List.takeWhile_append_of_pos ht]
  simp

/-- A NUL-free array denotes itself. -/
theorem cstr_of_no_nul (t : List Char) (ht : ∀ c ∈ t, (c != NUL) = true) : cstr t = t := by
  unfold cstr
  exact List.takeWhile_eq_self_iff.mpr ht

/-- The line buffer written by `log_push` denotes the first 127 characters of the pushed string. -/
theorem cstr_stored_line (d s : List Char) :
    cstr ((strncpy d s (LINE_SIZE - 1)).set (LINE_SIZE - 1) NUL) = (cstr s).take 127 := by
  have ht : ∀ c ∈ (cstr s).take 127, (c != NUL) = true :=
    fun c hc => cstr_ne_nul s c (List.mem_of_mem_take hc)
  have hlen : ((cstr s).take 127).length ≤ 127 := by simp
  have e : LINE_SIZE - 1 = 127 := rfl
  rw [e]
  simp only [strncpy]
  generalize (cstr s).take 127 = t at ht hlen
  rcases Nat.lt_or_ge t.length 127 with h | h
  · obtain ⟨k, hk⟩ : ∃ k, 127 - t.length = k + 1 := ⟨126 - t.length, by omega⟩
    rw [hk, List.replicate_succ, List.append_assoc, List.cons_append,
      List.set_append_right _ _ (by omega), hk, List.set_cons_succ]
    exact cstr_append_nul t _ ht
  · have h0 : 127 - t.length = 0 := by omega
    have h1 : t.length = 127 := by omega
    rw [h0, List.replicate_zero, List.append_nil, List.set_append_right _ _ (by omega), h1]
    cases hd : d.drop 127 with
    | nil => simpa using cstr_of_no_nul t ht
    | cons a rest => simpa using cstr_append_nul t rest ht

/-! ## Ring-buffer log: state after a run of pushes -/

/-- Ranks that agree modulo 16 share a slot. -/
theorem slot_eq_of_mod_eq {a b : Nat} (h : a % 16 = b % 16) : slot a = slot b := by
  simp only [slot, LOG_CAP, Fin.mk.injEq]; exact h

/-- Two distinct ranks less than 16 apart have distinct slots. -/
theorem slot_ne_of_near {a b : Nat} (h1 : a < b) (h2 : b < a + 16) : slot a ≠ slot b := by
  simp only [slot, LOG_CAP, ne_eq, Fin.mk.injEq]; omega

/-- A run of pushes followed by one more push. -/
theorem log_push_all_snoc (r : ring_log_t) (es : List (List Char)) (e : List Char) :
    log_push_all r (es ++ [e]) = log_push (log_push_all r es) e := by
  simp [log_push_all, List.foldl_append]

/-- The state reached from a fresh log by the pushes `es`: `count` saturates at
`LOG_CAP`, `head` trails the number of pushes by `count` modulo `LOG_CAP`, and
each of the last `LOG_CAP` pushes sits, truncated, in the slot of its rank. -/
theorem log_push_all_state (r : ring_log_t) (es : List (List Char)) :
    (log_push_all (log_init r) es).count = min es.length 16 ∧
    (log_push_all (log_init r) es).head = (es.length - min es.length 16) % 16 ∧
    ∀ j (hj : j < es.length), es.length ≤ j + 16 →
      cstr ((log_push_all (log_init r) es).buf (slot j)) = (cstr es[j]).take 127 := by
  induction es using List.reverseRecOn with
  | nil => simp [log_push_all, log_init]
  | append_singleton es e ih =>
    obtain ⟨hc, hh, hb⟩ := ih
    rw [log_push_all_snoc]
    generalize log_push_all (log_init r) es = q at hc hh hb
    have hidx : slot (q.head + q.count) = slot es.length := by
      apply slot_eq_of_mod_eq; rw [hc, hh]; omega
    have hbuf : (log_push q e).buf = Function.update q.buf (slot es.length)
        ((strncpy (q.buf (slot es.length)) e (LINE_SIZE - 1)).set (LINE_SIZE - 1) NUL) := by
      unfold log_push
      simp only [hidx]
      split <;> rfl
    refine ⟨?_, ?_, ?_⟩
    · unfold log_push
      simp only [LOG_CAP, List.length_append, List.length_singleton]
      split <;> simp only <;> omega
    · unfold log_push
      simp only [LOG_CAP, List.length_append, List.length_singleton]
      split <;> simp only <;> omega
    · intro j hj hj16
      simp only [List.length_append, List.length_singleton] at hj hj16
      rw [hbuf]
      rcases Nat.lt_or_ge j es.length with h | h
      · rw [Function.update_noteq (slot_ne_of_near h (by omega)), hb j h (by omega)]
        simp [List.getElem_append_left h]
      · have hje : j = es.length := by omega
        subst hje
        rw [Function.update_same, cstr_stored_line]
        simp

/-- C1. After any run of pushes into a log set up by `log_init`, `log_dump`
writes exactly the last `min n 16` pushed entries, each cut to its first 127
characters, oldest first. -/
theorem log_dump_last_entries (r : ring_log_t) (es : List (List Char)) :
    log_dump (log_push_all (log_init r) es) =
      (es.drop (es.length - min es.length LOG_CAP)).map (fun e => (cstr e).take 127) := by
  obtain ⟨hc, hh, hb⟩ := log_push_all_state r es
  unfold log_dump
  apply List.ext_getElem
  · simp only [List.length_map, List.length_range, List.length_drop, hc, LOG_CAP]; omega
  · intro i h1 h2
    simp only [List.length_map, List.length_range, hc] at h1
    simp only [List.getElem_map, List.getElem_range, List.getElem_drop, LOG_CAP]
    have hs : slot ((log_push_all (log_init r) es).head + i) =
        slot (es.length - min es.length 16 + i) := by
      apply slot_eq_of_mod_eq; rw [hh]; omega
    rw [hs, hb _ (by omega) (by omega)]

/-! ## Moving-average filter: state after a run of pushes -/

/-- A run of filter pushes followed by one more push. -/
theorem movavg_push_all_snoc (m : movavg_t) (xs : List ℚ) (x : ℚ) :
    movavg_push_all m (xs ++ [x]) = (movavg_push (movavg_push_all m xs) x).1 := by
  simp [movavg_push_all, List.foldl_append]

/-- The sum of the last 8 values once one more value is appended. -/
theorem sum_drop_snoc (xs : List ℚ) (x : ℚ) (h : 8 ≤ xs.length) :
    ((xs ++ [x]).drop (xs.length + 1 - 8)).sum =
      (xs.drop (xs.length - 8)).sum - xs[xs.length - 8] + x := by
  rw [List.drop_append_of_le_length (by omega), List.sum_append,
    List.drop_eq_getElem_cons (show xs.length - 8 < xs.length by omega)]
  have e : xs.length - 8 + 1 = xs.length + 1 - 8 := by omega
  simp only [List.sum_cons, List.sum_nil, e]
  ring

/-- The state reached from a cleared filter by the pushes `xs`: `filled`
saturates at `FILTER_LEN`, the cursor is the number of pushes modulo
`FILTER_LEN`, each of the last `FILTER_LEN` values sits in the slot of its
rank, and `sum` is the sum of those values. -/
theorem movavg_push_all_state (xs : List ℚ) :
    (movavg_push_all movavg_init xs).filled = min xs.length 8 ∧
    (movavg_push_all movavg_init xs).idx = xs.length % 8 ∧
    (movavg_push_all movavg_init xs).buf.length = 8 ∧
    (movavg_push_all movavg_init xs).sum = (xs.drop (xs.length - 8)).sum ∧
    ∀ j (hj : j < xs.length), xs.length ≤ j + 8 →
      (movavg_push_all movavg_init xs).buf[j % 8]? = some xs[j] := by
  induction xs using List.reverseRecOn with
  | nil => simp [movavg_push_all, movavg_init, FILTER_LEN]
  | append_singleton xs x ih =>
    obtain ⟨hf, hi, hl, hs, hb⟩ := ih
    rw [movavg_push_all_snoc]
    generalize movavg_push_all movavg_init xs = m at hf hi hl hs hb
    have hbuf : (movavg_push m x).1.buf = m.buf.set (xs.length % 8) x := by
      unfold movavg_push; rw [hi]; split <;> rfl
    have hidx : (movavg_push m x).1.idx = (xs.length + 1) % 8 := by
      unfold movavg_push; rw [hi]; simp only [FILTER_LEN]; split <;> simp only <;> omega
    refine ⟨?_, ?_, ?_, ?_, ?_⟩
    · unfold movavg_push
      simp only [FILTER_LEN, List.length_append, List.length_singleton]
      split <;> simp only <;> omega
    · simpa using hidx
    · rw [hbuf, List.length_set, hl]
    · simp only [List.length_append, List.length_singleton]
      unfold movavg_push
      simp only [FILTER_LEN]
      split
      · next h =>
        have h8 : xs.length < 8 := by omega
        have e1 : xs.length + 1 - 8 = 0 := by omega
        have e2 : xs.length - 8 = 0 := by omega
        simp [hs, e1, e2]
      · next h =>
        have h8 : 8 ≤ xs.length := by omega
        have hg := hb (xs.length - 8) (by omega) (by omega)
        have e : (xs.length - 8) % 8 = xs.length % 8 := by omega
        rw [e, ← hi] at hg
        simp only [List.getD_eq_getElem?_getD, hg, Option.getD_some, hs]
        exact (sum_drop_snoc xs x h8).symm
    · intro j hj hj8
      simp only [List.length_append, List.length_singleton] at hj hj8
      rw [hbuf]
      rcases Nat.lt_or_ge j xs.length with h | h
      · rw [List.getElem?_set_ne (by omega), hb j h (by omega)]
        simp [List.getElem_append_left h]
      · have hje : j = xs.length := by omega
        subst hje
        rw [List.getElem?_set_self (by rw [hl]; omega)]
        simp

/-- The value returned by a push that follows the pushes `xs` into a cleared
filter: the sum of the last `min (n + 1) 8` values, divided by their number. -/
theorem movavg_push_value (xs : List ℚ) (x : ℚ) :
    (movavg_push (movavg_push_all movavg_init xs) x).2 =
      ((xs ++ [x]).drop (xs.length + 1 - 8)).sum / ((min (xs.length + 1) 8 : Nat) : ℚ) := by
  have hst := movavg_push_all_state (xs ++ [x])
  rw [movavg_push_all_snoc] at hst
  obtain ⟨hf', _, _, hs', _⟩ := hst
  obtain ⟨hf, _, _, _, _⟩ := movavg_push_all_state xs
  simp only [List.length_append, List.length_singleton] at hf' hs'
  rw [← hs']
  generalize movavg_push_all movavg_init xs = m at hf hf' hs'
  unfold movavg_push
  simp only [FILTER_LEN]
  split
  · next h =>
    have e : min (xs.length + 1) 8 = m.filled + 1 := by omega
    simp [e]
  · next h =>
    have e : min (xs.length + 1) 8 = 8 := by omega
    simp [e]

/-- The value returned by the push of rank `i` in a run of pushes. -/
theorem movavg_returns_at (m : movavg_t) (xs : List ℚ) (i : Nat) (h : i < xs.length) :
    (movavg_returns m xs)[i]? = some (movavg_push (movavg_push_all m (xs.take i)) xs[i]).2 := by
  induction xs generalizing m i with
  | nil => simp at h
  | cons x xs ih =>
    cases i with
    | zero => simp [movavg_returns, movavg_push_all]
    | succ i =>
      simp only [List.length_cons, Nat.add_lt_add_iff_right] at h
      simp only [movavg_returns, List.getElem?_cons_succ, List.take_succ_cons,
        List.getElem_cons_succ]
      rw [ih _ i h]
      simp [movavg_push_all]

/-- The value returned by the `n`-th push of a run into a cleared filter is
the mean of the last `min n 8` values pushed so far. -/
theorem movavg_returns_nth (xs : List ℚ) (n : Nat) (h1 : 1 ≤ n) (h2 : n ≤ xs.length) :
    (movavg_returns movavg_init xs)[n - 1]? =
      some (((xs.take n).drop (n - 8)).sum / ((min n 8 : Nat) : ℚ)) := by
  rw [movavg_returns_at _ _ _ (by omega), movavg_push_value]
  have e : xs.take (n - 1) ++ [xs[n - 1]] = xs.take n := by
    have := List.take_succ (l := xs) (n := n - 1)
    rw [List.getElem?_eq_getElem (by omega)] at this
    have e1 : n - 1 + 1 = n := by omega
    rw [e1] at this
    simpa using this.symm
  have e2 : (xs.take (n - 1)).length + 1 = n := by
    rw [List.length_take]; omega
  rw [e, e2]

/-! ## Moving-average filter: returned values -/

/-- C2. For any eight values pushed into a cleared filter, the eighth push
returns their arithmetic mean, whatever is pushed afterwards. -/
theorem movavg_eighth_push_is_mean (x1 x2 x3 x4 x5 x6 x7 x8 : ℚ) (rest : List ℚ) :
    (movavg_returns movavg_init (x1 :: x2 :: x3 :: x4 :: x5 :: x6 :: x7 :: x8 :: rest))[7]? =
      some ((x1 + x2 + x3 + x4 + x5 + x6 + x7 + x8) / 8) := by
  have h := movavg_returns_nth (x1 :: x2 :: x3 :: x4 :: x5 :: x6 :: x7 :: x8 :: rest) 8
    (by decide) (by simp)
  rw [show 8 - 1 = 7 from rfl] at h
  rw [h]
  simp only [List.take_succ_cons, List.take_zero, Nat.sub_self, List.drop_zero, List.sum_cons,
    List.sum_nil, Nat.min_self, Option.some.injEq]
  norm_num
  ring

/-- C3. During warm-up, the `n`-th push (`1 ≤ n < 8`) into a cleared filter
returns the mean of the `n` values pushed so far. -/
theorem movavg_warmup_is_mean (xs : List ℚ) (n : Nat) (h1 : 1 ≤ n) (h2 : n < 8)
    (h3 : n ≤ xs.length) :
    (movavg_returns movavg_init xs)[n - 1]? = some ((xs.take n).sum / (n : ℚ)) := by
  rw [movavg_returns_nth xs n h1 h3]
  have e1 : n - 8 = 0 := by omega
  have e2 : min n 8 = n := by omega
  rw [e1, e2, List.drop_zero]

theorem movavg_warmup_is_mean_witness :
    1 ≤ 3 ∧ 3 < 8 ∧ 3 ≤ [4, 8, 6, (1 : ℚ)].length ∧
    (movavg_returns movavg_init [4, 8, 6, 1])[3 - 1]? =
      some (([4, 8, 6, (1 : ℚ)].take 3).sum / ((3 : Nat) : ℚ)) :=
  ⟨by decide, by decide, by decide,
    movavg_warmup_is_mean [4, 8, 6, 1] 3 (by decide) (by decide) (by decide)⟩

/-- C4. Once the window is full, the `n`-th push (`n > 8`) returns the mean of
the last 8 values pushed: the incremental update of `sum` agrees with summing
the window from scratch. -/
theorem movavg_steady_is_window_mean (xs : List ℚ) (n : Nat) (h1 : 8 < n)
    (h2 : n ≤ xs.length) :
    (movavg_returns movavg_init xs)[n - 1]? = some (window_mean (xs.take n)) := by
  rw [movavg_returns_nth xs n (by omega) h2]
  have e1 : (xs.take n).length = n := by rw [List.length_take]; omega
  have e2 : min n 8 = 8 := by omega
  simp only [window_mean, FILTER_LEN, e1, e2]

theorem movavg_steady_is_window_mean_witness :
    8 < 10 ∧ 10 ≤ [1, 2, 3, 4, 5, 6, 7, 8, 9, 10, (100 : ℚ)].length ∧
    (movavg_returns movavg_init [1, 2, 3, 4, 5, 6, 7, 8, 9, 10, 100])[10 - 1]? =
      some (window_mean ([1, 2, 3, 4, 5, 6, 7, 8, 9, 10, (100 : ℚ)].take 10)) :=
  ⟨by decide, by decide,
    movavg_steady_is_window_mean [1, 2, 3, 4, 5, 6, 7, 8, 9, 10, 100] 10 (by decide) (by decide)⟩

/-! ## Duty mapping -/

/-- C5. For a 16-bit reading `r`, `adc_to_duty r` is 100 from 4095 on and the
truncated quotient `r * 100 / 4095` below, the product never wrapping in 32
bits; `adc_to_duty 4095 = 100` and `adc_to_duty 4094 = 99`. -/
theorem adc_to_duty_spec (r : Nat) (hr : r < 2 ^ 16) :
    adc_to_duty r = (if 4095 ≤ r then 100 else ⌊((r : ℚ) * 100) / 4095⌋) ∧
    adc_to_duty r = (if 4095 ≤ r then 100 else ((r * 100 / 4095 : Nat) : Int)) ∧
    (r * 100) % 2 ^ 32 = r * 100 ∧
    adc_to_duty 4095 = 100 ∧ adc_to_duty 4094 = 99 := by
  have hw : (r * 100) % 2 ^ 32 = r * 100 := Nat.mod_eq_of_lt (by omega)
  have hq : adc_to_duty r = (if 4095 ≤ r then 100 else ((r * 100 / 4095 : Nat) : Int)) := by
    unfold adc_to_duty
    rw [hw]
  refine ⟨?_, hq, hw, by decide, by decide⟩
  rw [hq]
  split
  · rfl
  · have h := Rat.floor_intCast_div_natCast ((r * 100 : Nat) : Int) 4095
    push_cast at h
    rw [h]
    norm_cast

theorem adc_to_duty_spec_witness :
    2048 < 2 ^ 16 ∧
    (adc_to_duty 2048 = (if 4095 ≤ 2048 then 100 else ⌊(((2048 : Nat) : ℚ) * 100) / 4095⌋) ∧
      adc_to_duty 2048 = (if 4095 ≤ 2048 then 100 else ((2048 * 100 / 4095 : Nat) : Int)) ∧
      (2048 * 100) % 2 ^ 32 = 2048 * 100 ∧
      adc_to_duty 4095 = 100 ∧ adc_to_duty 4094 = 99) :=
  ⟨by decide, adc_to_duty_spec 2048 (by decide)⟩

/-- The duty of any reading below the ceiling is the plain quotient. -/
theorem adc_to_duty_below (r : Nat) (hr : r < 4095) :
    adc_to_duty r = ((r * 100 / 4095 : Nat) : Int) := by
  unfold adc_to_duty
  rw [if_neg (by omega), Nat.mod_eq_of_lt (by omega)]

/-- The duty of any reading at or above the ceiling is 100. -/
theorem adc_to_duty_above (r : Nat) (hr : 4095 ≤ r) : adc_to_duty r = 100 := by
  unfold adc_to_duty
  rw [if_pos hr]

/-- C6. For every 16-bit reading, the duty lies in `[0, 100]`. -/
theorem adc_to_duty_range (r : Nat) (hr : r < 2 ^ 16) :
    0 ≤ adc_to_duty r ∧ adc_to_duty r ≤ 100 := by
  rcases Nat.lt_or_ge r 4095 with h | h
  · rw [adc_to_duty_below r h]
    omega
  · rw [adc_to_duty_above r h]
    omega

theorem adc_to_duty_range_witness :
    65535 < 2 ^ 16 ∧ 0 ≤ adc_to_duty 65535 ∧ adc_to_duty 65535 ≤ 100 :=
  ⟨by decide, adc_to_duty_range 65535 (by decide)⟩

/-- C7. The duty of reading 0 is 0, and the duty never decreases when the
reading grows. -/
theorem adc_to_duty_zero_and_monotone :
    adc_to_duty 0 = 0 ∧ ∀ a b : Nat, a ≤ b → adc_to_duty a ≤ adc_to_duty b := by
  refine ⟨by decide, ?_⟩
  intro a b hab
  rcases Nat.lt_or_ge b 4095 with hb | hb
  · rw [adc_to_duty_below a (by omega), adc_to_duty_below b hb]
    have : a * 100 / 4095 ≤ b * 100 / 4095 := Nat.div_le_div_right (by omega)
    omega
  · rw [adc_to_duty_above b hb]
    rcases Nat.lt_or_ge a 4095 with ha | ha
    · rw [adc_to_duty_below a ha]
      omega
    · rw [adc_to_duty_above a ha]

theorem adc_to_duty_zero_and_monotone_witness :
    (1000 : Nat) ≤ 4094 ∧ adc_to_duty 1000 ≤ adc_to_duty 4094 :=
  ⟨by decide, adc_to_duty_zero_and_monotone.2 1000 4094 (by decide)⟩

/-! ## CRC-8 on concrete frames -/

set_option maxRecDepth 100000 in
/-- C8. The checksum of the empty sequence and of four zero bytes is 0, and
flipping the lowest bit of the first byte gives a different, nonzero byte. -/
theorem crc8_examples :
    crc8 [] = 0 ∧ crc8 [0x00, 0x00, 0x00, 0x00] = 0x00 ∧
    crc8 [0x01, 0x00, 0x00, 0x00] = 0x16 ∧
    crc8 [0x01, 0x00, 0x00, 0x00] ≠ 0 ∧
    crc8 [0x01, 0x00, 0x00, 0x00] ≠ crc8 [0x00, 0x00, 0x00, 0x00] ∧
    crc8 [0x01, 0x00, 0x00, 0x00] < 256 := by
  decide

/-! ## Ring-buffer log: truncation -/

/-- C10. `log_push` is total, and the line it stores in the slot after the
newest entry is the pushed text itself when that has at most 127 characters
and its first 127 characters otherwise. -/
theorem log_push_stores_truncated (r : ring_log_t) (s : List Char) :
    cstr ((log_push r s).buf (slot (r.head + r.count))) =
      (if (cstr s).length ≤ 127 then cstr s else (cstr s).take 127) ∧
    (cstr ((log_push r s).buf (slot (r.head + r.count)))).length = min (cstr s).length 127 := by
  have hbuf : (log_push r s).buf (slot (r.head + r.count)) =
      (strncpy (r.buf (slot (r.head + r.count))) s (LINE_SIZE - 1)).set (LINE_SIZE - 1) NUL := by
    unfold log_push
    split <;> simp
  rw [hbuf, cstr_stored_line]
  refine ⟨?_, ?_⟩
  · split
    · next h => exact List.take_of_length_le h
    · rfl
  · rw [List.length_take]; omega

/-! ## Bitwise arithmetic -/

/-- Doubling distributes over `^^^`. -/
theorem xor_two_mul (x y : Nat) : 2 * x ^^^ 2 * y = 2 * (x ^^^ y) := by
  have h1 : (2 * x ^^^ 2 * y) / 2 = x ^^^ y := by
    rw [Nat.xor_div_two]; simp
  have h2 : (2 * x ^^^ 2 * y) % 2 = 0 := by
    rw [Nat.xor_mod_two_eq]; omega
  omega

/-- Multiplication by `x^k` distributes over polynomial addition. -/
theorem xor_pow_mul (k x y : Nat) : 2 ^ k * x ^^^ 2 ^ k * y = 2 ^ k * (x ^^^ y) := by
  induction k generalizing x y with
  | zero => simp
  | succ k ih =>
    rw [pow_succ, mul_assoc, mul_assoc, mul_assoc, ih, xor_two_mul]

/-- Dropping the `k` lowest terms distributes over polynomial addition. -/
theorem xor_div_pow (k x y : Nat) : (x ^^^ y) / 2 ^ k = x / 2 ^ k ^^^ y / 2 ^ k := by
  induction k generalizing x y with
  | zero => simp
  | succ k ih =>
    rw [pow_succ, ← Nat.div_div_eq_div_mul, ← Nat.div_div_eq_div_mul, ← Nat.div_div_eq_div_mul,
      ih, Nat.xor_div_two]

/-- Appending `k` low bits to a number is the same as adding them as a polynomial. -/
theorem add_eq_xor_of_lt (k a b : Nat) (hb : b < 2 ^ k) : 2 ^ k * a + b = 2 ^ k * a ^^^ b := by
  induction k generalizing a b with
  | zero =>
    have : b = 0 := by simpa using hb
    subst this; simp
  | succ k ih =>
    have hb2 : b / 2 < 2 ^ k := by rw [pow_succ] at hb; omega
    have h1 : (2 ^ (k + 1) * a ^^^ b) / 2 = 2 ^ k * a + b / 2 := by
      rw [Nat.xor_div_two, ih a (b / 2) hb2, pow_succ, mul_assoc, mul_comm 2 a, ← mul_assoc,
        Nat.mul_div_cancel _ (by decide : 0 < 2)]
    have h2 : (2 ^ (k + 1) * a ^^^ b) % 2 = b % 2 := by
      rw [Nat.xor_mod_two_eq, pow_succ, mul_assoc, mul_comm 2 a, ← mul_assoc]; omega
    have h3 : 2 ^ (k + 1) * a = 2 * (2 ^ k * a) := by rw [pow_succ]; ring
    omega

/-! ## CRC-8 and polynomial division -/

set_option maxRecDepth 100000 in
/-- On a byte, one pass of the inner loop doubles the register and adds the
generator when the top bit was set. -/
theorem crc8_bit_eq (c : Nat) (hc : c < 256) :
    crc8_bit c = 2 * c ^^^ (if 128 ≤ c then 0x107 else 0) ∧ crc8_bit c < 256 := by
  revert c
  decide

/-- The zero polynomial times anything is zero. -/
theorem gf2_mul_zero_left (b : Nat) : gf2_mul 0 b = 0 := by
  rw [gf2_mul]; simp

/-- The defining equation of `gf2_mul`, valid for every left factor. -/
theorem gf2_mul_eq (a b : Nat) :
    gf2_mul a b = (if a % 2 = 1 then b else 0) ^^^ 2 * gf2_mul (a / 2) b := by
  by_cases h : a = 0
  · subst h; simp [gf2_mul_zero_left]
  · rw [gf2_mul, if_neg h]

/-- The constant polynomial 1 is a left unit. -/
theorem gf2_mul_one_left (b : Nat) : gf2_mul 1 b = b := by
  rw [gf2_mul_eq]; simp [gf2_mul_zero_left]

/-- Multiplying the left factor by `x` multiplies the product by `x`. -/
theorem gf2_mul_two_mul (a b : Nat) : gf2_mul (2 * a) b = 2 * gf2_mul a b := by
  rw [gf2_mul_eq]; simp

/-- Multiplying the left factor by `x^k` multiplies the product by `x^k`. -/
theorem gf2_mul_pow_mul (k a b : Nat) : gf2_mul (2 ^ k * a) b = 2 ^ k * gf2_mul a b := by
  induction k generalizing a with
  | zero => simp
  | succ k ih => rw [pow_succ, mul_assoc, ih, gf2_mul_two_mul]; ring

/-- The product distributes over addition of the left factor. -/
theorem gf2_mul_xor (a a' b : Nat) :
    gf2_mul (a ^^^ a') b = gf2_mul a b ^^^ gf2_mul a' b := by
  induction a using Nat.strong_induction_on generalizing a' with
  | _ a ih =>
    by_cases h0 : a = 0
    · subst h0; simp [gf2_mul_zero_left]
    · rw [gf2_mul_eq (a ^^^ a') b, gf2_mul_eq a b, gf2_mul_eq a' b, Nat.xor_div_two,
        ih (a / 2) (by omega) (a' / 2), ← xor_two_mul, Nat.xor_mod_two_eq]
      generalize 2 * gf2_mul (a / 2) b = X
      generalize 2 * gf2_mul (a' / 2) b = Y
      rcases Nat.mod_two_eq_zero_or_one a with ha | ha <;>
        rcases Nat.mod_two_eq_zero_or_one a' with hb | hb
      · have hs : (a + a') % 2 = 0 := by omega
        simp [ha, hb, hs]
      · have hs : (a + a') % 2 = 1 := by omega
        simp only [ha, hb, hs, if_true, if_false, Nat.zero_xor, Nat.zero_ne_one]
        ac_rfl
      · have hs : (a + a') % 2 = 1 := by omega
        simp only [ha, hb, hs, if_true, if_false, Nat.zero_xor, Nat.zero_ne_one]
        ac_rfl
      · have hs : (a + a') % 2 = 0 := by omega
        simp only [ha, hb, hs, if_true, if_false, Nat.zero_xor, Nat.zero_ne_one]
        have : b ^^^ X ^^^ (b ^^^ Y) = (b ^^^ b) ^^^ (X ^^^ Y) := by ac_rfl
        rw [this]; simp

/-- A nonzero multiple of the generator has degree at least 8. -/
theorem gf2_mul_poly_ge (q : Nat) (hq : q ≠ 0) : 256 ≤ gf2_mul q CRC8_POLY := by
  induction q using Nat.strong_induction_on with
  | _ q ih =>
    rw [gf2_mul_eq]
    by_cases h : q / 2 = 0
    · have h1 : q = 1 := by omega
      subst h1
      simp [gf2_mul_zero_left, CRC8_POLY]
    · have hm := ih (q / 2) (by omega) h
      generalize gf2_mul (q / 2) CRC8_POLY = m at hm
      have hd : ((if q % 2 = 1 then CRC8_POLY else 0) ^^^ 2 * m) / 2 ^ 9 = 2 * m / 2 ^ 9 := by
        rw [xor_div_pow]
        have : (if q % 2 = 1 then CRC8_POLY else 0) / 2 ^ 9 = 0 := by
          split <;> simp [CRC8_POLY]
        rw [this, Nat.zero_xor]
      have h2 : 1 ≤ 2 * m / 2 ^ 9 := by
        rw [Nat.le_div_iff_mul_le (by decide)]; omega
      rw [← hd, Nat.le_div_iff_mul_le (by decide)] at h2
      omega

/-- Running the inner loop `k` times multiplies the register by `x^k` modulo the generator. -/
theorem crc8_bit_iterate (k c : Nat) (hc : c < 256) :
    crc8_bit^[k] c < 256 ∧ ∃ q, crc8_bit^[k] c = 2 ^ k * c ^^^ gf2_mul q CRC8_POLY := by
  induction k with
  | zero => exact ⟨hc, 0, by simp [gf2_mul_zero_left]⟩
  | succ k ih =>
    obtain ⟨hlt, q, hq⟩ := ih
    rw [Function.iterate_succ_apply']
    obtain ⟨he, hlt'⟩ := crc8_bit_eq _ hlt
    refine ⟨hlt', 2 * q ^^^ (if 128 ≤ crc8_bit^[k] c then 1 else 0), ?_⟩
    rw [he, gf2_mul_xor, gf2_mul_two_mul, hq, ← xor_two_mul, Nat.xor_assoc, pow_succ]
    congr 1
    · ring
    · congr 1
      split <;> simp [gf2_mul_one_left, gf2_mul_zero_left, CRC8_POLY]

/-- The checksum of a sequence with one more byte at the end. -/
theorem crc8_snoc (data : List Nat) (b : Nat) :
    crc8 (data ++ [b]) = crc8_byte (crc8 data) b := by
  simp [crc8, List.foldl_append]

/-- The message polynomial of a sequence with one more byte at the end. -/
theorem msg_poly_snoc (data : List Nat) (b : Nat) :
    msg_poly (data ++ [b]) = msg_poly data * 256 + b := by
  simp [msg_poly, List.foldl_append]

/-- The register is a byte, and differs from `M(x) * x^8` by a multiple of the generator. -/
theorem crc8_congr (data : List Nat) (h : ∀ b ∈ data, b < 256) :
    crc8 data < 256 ∧ ∃ q, gf2_mul q CRC8_POLY ^^^ crc8 data = msg_poly data * 2 ^ 8 := by
  induction data using List.reverseRecOn with
  | nil => exact ⟨by decide, 0, by simp [gf2_mul_zero_left, crc8, msg_poly]⟩
  | append_singleton data b ih =>
    obtain ⟨hlt, q, hq⟩ := ih (fun x hx => h x (by simp [hx]))
    have hb : b < 256 := h b (by simp)
    have hcb : crc8 data ^^^ b < 256 := Nat.xor_lt_two_pow (n := 8) hlt hb
    obtain ⟨hlt', q', hq'⟩ := crc8_bit_iterate 8 _ hcb
    rw [crc8_snoc, msg_poly_snoc]
    refine ⟨hlt', 2 ^ 8 * q ^^^ q', ?_⟩
    unfold crc8_byte
    have hM : msg_poly data * 256 + b = 2 ^ 8 * msg_poly data ^^^ b := by
      rw [← add_eq_xor_of_lt 8 (msg_poly data) b hb]; ring
    have hq2 : 2 ^ 8 * msg_poly data = gf2_mul q CRC8_POLY ^^^ crc8 data := by
      rw [hq]; ring
    rw [hq', gf2_mul_xor, gf2_mul_pow_mul, hM, hq2, mul_comm _ (2 ^ 8), ← xor_pow_mul,
      ← xor_pow_mul, ← xor_pow_mul]
    generalize 2 ^ 8 * gf2_mul q CRC8_POLY = A
    generalize gf2_mul q' CRC8_POLY = B
    generalize 2 ^ 8 * crc8 data = C
    generalize 2 ^ 8 * b = D
    have : A ^^^ B ^^^ (C ^^^ D ^^^ B) = A ^^^ C ^^^ D ^^^ (B ^^^ B) := by ac_rfl
    rw [this]; simp

/-- Two bytes that differ from the same polynomial by multiples of the generator are equal. -/
theorem gf2_remainder_unique (a r r' q q' : Nat) (hr : r < 2 ^ 8) (hr' : r' < 2 ^ 8)
    (h : gf2_mul q CRC8_POLY ^^^ r = a) (h' : gf2_mul q' CRC8_POLY ^^^ r' = a) : r = r' := by
  have e : gf2_mul (q ^^^ q') CRC8_POLY = r ^^^ r' := by
    rw [gf2_mul_xor]
    have h1 : gf2_mul q CRC8_POLY = a ^^^ r := by rw [← h, Nat.xor_assoc]; simp
    have h2 : gf2_mul q' CRC8_POLY = a ^^^ r' := by rw [← h', Nat.xor_assoc]; simp
    rw [h1, h2]
    have : a ^^^ r ^^^ (a ^^^ r') = (a ^^^ a) ^^^ (r ^^^ r') := by ac_rfl
    rw [this]; simp
  have hlt : r ^^^ r' < 2 ^ 8 := Nat.xor_lt_two_pow hr hr'
  by_cases hz : q ^^^ q' = 0
  · rw [hz, gf2_mul_zero_left] at e
    exact Nat.xor_eq_zero.mp e.symm
  · have := gf2_mul_poly_ge _ hz
    omega

/-- Long division leaves a byte that differs from the dividend by a multiple of the generator. -/
theorem gf2_mod_poly_spec (n a : Nat) (ha : a < 2 ^ (n + 8)) :
    gf2_mod_poly n a < 2 ^ 8 ∧ ∃ q, gf2_mul q CRC8_POLY ^^^ gf2_mod_poly n a = a := by
  induction n generalizing a with
  | zero => exact ⟨by simpa [gf2_mod_poly] using ha, 0, by simp [gf2_mod_poly, gf2_mul_zero_left]⟩
  | succ n ih =>
    have hpos : 0 < 2 ^ (n + 8) := Nat.two_pow_pos _
    have hd : a / 2 ^ (n + 8) < 2 := by
      have e : 2 ^ (n + 1 + 8) = 2 * 2 ^ (n + 8) := by ring
      rw [e] at ha
      exact (Nat.div_lt_iff_lt_mul hpos).mpr ha
    have hg : CRC8_POLY * 2 ^ n / 2 ^ (n + 8) = 1 := by
      have : 2 ^ (n + 8) = 2 ^ 8 * 2 ^ n := by ring
      rw [this, Nat.mul_div_mul_right _ _ (Nat.two_pow_pos n)]
      rfl
    simp only [gf2_mod_poly]
    by_cases hb : a.testBit (n + 8) = true
    · rw [if_pos hb]
      rw [Nat.testBit_to_div_mod, decide_eq_true_eq] at hb
      have ha' : a ^^^ CRC8_POLY * 2 ^ n < 2 ^ (n + 8) := by
        have h0 : (a ^^^ CRC8_POLY * 2 ^ n) / 2 ^ (n + 8) = 0 := by
          rw [xor_div_pow, hg]
          have h1 : ∀ x : Nat, x < 2 → x % 2 = 1 → x = 1 := by omega
          rw [h1 _ hd hb]; rfl
        have h2 := (Nat.div_lt_iff_lt_mul (y := 1) hpos).mp (Nat.lt_one_iff.mpr h0)
        rwa [one_mul] at h2
      obtain ⟨hlt, q, hq⟩ := ih _ ha'
      refine ⟨hlt, q ^^^ 2 ^ n, ?_⟩
      have hm : gf2_mul (2 ^ n) CRC8_POLY = CRC8_POLY * 2 ^ n := by
        have := gf2_mul_pow_mul n 1 CRC8_POLY
        rw [gf2_mul_one_left, mul_one] at this
        rw [this]; ring
      rw [gf2_mul_xor, hm]
      generalize gf2_mod_poly n (a ^^^ CRC8_POLY * 2 ^ n) = r at hq
      generalize CRC8_POLY * 2 ^ n = g at hq
      rw [← Nat.xor_cancel_right g a, ← hq]
      ac_rfl
    · rw [if_neg hb]
      rw [Nat.testBit_to_div_mod, decide_eq_true_eq] at hb
      have ha' : a < 2 ^ (n + 8) := by
        have h1 : ∀ x : Nat, x < 2 → ¬ x % 2 = 1 → x = 0 := by omega
        have h2 := (Nat.div_lt_iff_lt_mul (y := 1) hpos).mp (Nat.lt_one_iff.mpr (h1 _ hd hb))
        rwa [one_mul] at h2
      exact ih a ha'

/-- The message polynomial of `n` bytes has degree below `8 * n`. -/
theorem msg_poly_lt (data : List Nat) (h : ∀ b ∈ data, b < 256) :
    msg_poly data < 2 ^ (8 * data.length) := by
  induction data using List.reverseRecOn with
  | nil => simp [msg_poly]
  | append_singleton data b ih =>
    have hm := ih (fun x hx => h x (by simp [hx]))
    have hb : b < 256 := h b (by simp)
    rw [msg_poly_snoc, List.length_append, List.length_singleton]
    have : 2 ^ (8 * (data.length + 1)) = 2 ^ (8 * data.length) * 256 := by ring
    omega

set_option maxRecDepth 100000 in
/-- C9. For every byte sequence, `crc8` is the remainder of `M(x) * x^8` modulo
`x^8 + x^2 + x + 1` over GF(2), `M` being the message read most-significant
bit first: it equals the long-division remainder `crc8_spec`, it has degree
below 8, it differs from `M(x) * x^8` by a multiple of the generator, and it is
the only such byte. The ASCII bytes of "123456789" give 0xF4. -/
theorem crc8_is_poly_remainder (data : List Nat) (h : ∀ b ∈ data, b < 256) :
    crc8 data = crc8_spec data ∧
    crc8 data < 2 ^ 8 ∧
    (∃ q, gf2_mul q CRC8_POLY ^^^ crc8 data = msg_poly data * 2 ^ 8) ∧
    (∀ r q, r < 2 ^ 8 → gf2_mul q CRC8_POLY ^^^ r = msg_poly data * 2 ^ 8 → r = crc8 data) ∧
    crc8 [0x31, 0x32, 0x33, 0x34, 0x35, 0x36, 0x37, 0x38, 0x39] = 0xF4 := by
  obtain ⟨hlt, q, hq⟩ := crc8_congr data h
  have hM : msg_poly data * 2 ^ 8 < 2 ^ (8 * data.length + 8) := by
    have := msg_poly_lt data h
    have e : 2 ^ (8 * data.length + 8) = 2 ^ (8 * data.length) * 2 ^ 8 := by ring
    rw [e]
    exact Nat.mul_lt_mul_of_pos_right this (by decide)
  obtain ⟨hlt', q', hq'⟩ := gf2_mod_poly_spec (8 * data.length) _ hM
  refine ⟨?_, hlt, ⟨q, hq⟩, ?_, by decide⟩
  · exact gf2_remainder_unique _ _ _ q q' hlt hlt' hq hq'
  · intro r q2 hr hq2
    exact gf2_remainder_unique _ _ _ q2 q hr hlt hq2 hq

theorem crc8_is_poly_remainder_witness :
    (∀ b ∈ [0x12, 0x34, 0x50, (0x34 : Nat)], b < 256) ∧
    crc8 [0x12, 0x34, 0x50, 0x34] = crc8_spec [0x12, 0x34, 0x50, 0x34] :=
  ⟨by decide, (crc8_is_poly_remainder [0x12, 0x34, 0x50, 0x34] (by decide)).1⟩

/-! ## Ring-buffer log: bounds of `head` and `count` -/

/-- C11. From a state with `head < 16` and `count ≤ 16`, `log_push` keeps both
bounds; below capacity it increments `count` and keeps `head`; at capacity it
writes the slot at `head`, leaves every other slot alone, advances `head`
modulo 16 and keeps `count` at 16. After `n` pushes into a fresh log, `count`
is `min n 16`. -/
theorem log_push_bounds (r : ring_log_t) (s : List Char) (hh : r.head < 16)
    (hc : r.count ≤ 16) :
    ((log_push r s).head < 16 ∧ (log_push r s).count ≤ 16) ∧
    (r.count < 16 → (log_push r s).count = r.count + 1 ∧ (log_push r s).head = r.head) ∧
    (r.count = 16 →
      cstr ((log_push r s).buf (slot r.head)) = (cstr s).take 127 ∧
      (∀ i, i ≠ slot r.head → (log_push r s).buf i = r.buf i) ∧
      (log_push r s).head = (r.head + 1) % 16 ∧ (log_push r s).count = 16) ∧
    (∀ (r0 : ring_log_t) (es : List (List Char)),
      (log_push_all (log_init r0) es).count = min es.length 16) := by
  refine ⟨?_, ?_, ?_, fun r0 es => (log_push_all_state r0 es).1⟩
  · unfold log_push
    simp only [LOG_CAP]
    split <;> simp only <;> omega
  · intro h
    unfold log_push
    simp only [LOG_CAP]
    rw [if_pos h]
    exact ⟨rfl, rfl⟩
  · intro h
    have hidx : slot (r.head + r.count) = slot r.head := by
      apply slot_eq_of_mod_eq; omega
    have hbuf : (log_push r s).buf = Function.update r.buf (slot r.head)
        ((strncpy (r.buf (slot r.head)) s (LINE_SIZE - 1)).set (LINE_SIZE - 1) NUL) := by
      unfold log_push
      simp only [hidx]
      split <;> rfl
    refine ⟨?_, ?_, ?_, ?_⟩
    · rw [hbuf, Function.update_same, cstr_stored_line]
    · intro i hi
      rw [hbuf, Function.update_noteq hi]
    · unfold log_push
      simp only [LOG_CAP]
      rw [if_neg (by omega)]
    · unfold log_push
      simp only [LOG_CAP]
      rw [if_neg (by omega)]
      exact h

theorem log_push_bounds_witness :
    (3 : Nat) < 16 ∧ (16 : Nat) ≤ 16 ∧
    (log_push { buf := fun _ => [], head := 3, count := 16 } ['a']).head = (3 + 1) % 16 ∧
    (log_push { buf := fun _ => [], head := 3, count := 16 } ['a']).count = 16 :=
  ⟨by decide, by decide,
    ((log_push_bounds { buf := fun _ => [], head := 3, count := 16 } ['a']
      (by decide) (by decide)).2.2.1 rfl).2.2⟩

/-! ## Signal simulator -/

/-- The clamped value lies in `[0, 4095]`. -/
theorem clamp_adc_range (adc : ℚ) : 0 ≤ clamp_adc adc ∧ clamp_adc adc ≤ 4095 := by
  unfold clamp_adc
  simp only
  split_ifs <;> constructor <;> linarith

/-- On `[0, 65536)` the conversion to `uint16_t` is the integer part, without wrap. -/
theorem double_to_u16_eq_floor (x : ℚ) (h0 : 0 ≤ x) (h1 : x < 65536) :
    double_to_u16 x = ⌊x⌋.toNat ∧ ((double_to_u16 x : Nat) : ℚ) ≤ x := by
  have hf0 : 0 ≤ ⌊x⌋ := Int.floor_nonneg.mpr h0
  have hf1 : ⌊x⌋ < 65536 := by
    have : ⌊x⌋ < ((65536 : Int)) := Int.floor_lt.mpr (by exact_mod_cast h1)
    exact this
  have e : double_to_u16 x = ⌊x⌋.toNat := by
    unfold double_to_u16
    rw [if_pos h0, Int.emod_eq_of_lt hf0 (by norm_num; exact hf1)]
  refine ⟨e, ?_⟩
  rw [e]
  have h2 : ((⌊x⌋.toNat : Nat) : ℚ) = ((⌊x⌋ : Int) : ℚ) := by
    have : ((⌊x⌋.toNat : Nat) : Int) = ⌊x⌋ := Int.toNat_of_nonneg hf0
    exact_mod_cast congrArg (fun z : Int => (z : ℚ)) this
  rw [h2]
  exact Int.floor_le x

/-- A value of `[0, 4095]` converts to a reading of `0 .. 4095`. -/
theorem double_to_u16_le (x : ℚ) (h0 : 0 ≤ x) (h1 : x ≤ 4095) : double_to_u16 x ≤ 4095 := by
  obtain ⟨_, h⟩ := double_to_u16_eq_floor x h0 (by linarith)
  have : ((double_to_u16 x : Nat) : ℚ) ≤ ((4095 : Nat) : ℚ) := by
    push_cast; linarith
  exact_mod_cast this

/-- C12. Whatever value the scaled sinusoid plus noise takes, clamping and
truncating it gives a reading in `[0, 4095]`; so does `simulate_adc` for every
elapsed time, every value of the sine and every value returned by `rand()`. -/
theorem simulate_adc_range :
    (∀ adc : ℚ, 0 ≤ clamp_adc adc ∧ clamp_adc adc ≤ 4095 ∧
      double_to_u16 (clamp_adc adc) = ⌊clamp_adc adc⌋.toNat ∧
      0 ≤ double_to_u16 (clamp_adc adc) ∧ double_to_u16 (clamp_adc adc) ≤ 4095) ∧
    (∀ (sine : ℚ → ℚ) (t_sec : ℚ) (rnd : Nat),
      0 ≤ simulate_adc sine t_sec rnd ∧ simulate_adc sine t_sec rnd ≤ 4095) := by
  constructor
  · intro adc
    obtain ⟨h0, h1⟩ := clamp_adc_range adc
    exact ⟨h0, h1, (double_to_u16_eq_floor _ h0 (by linarith)).1, Nat.zero_le _,
      double_to_u16_le _ h0 h1⟩
  · intro sine t_sec rnd
    unfold simulate_adc
    obtain ⟨h0, h1⟩ := clamp_adc_range
      (1 / 2 * (1 + sine (2 * M_PI * (1 / 2) * t_sec)) * 4095 + noise rnd)
    exact ⟨Nat.zero_le _, double_to_u16_le _ h0 h1⟩

/-- The noise term is half of an integer of `-100 .. 100`. -/
theorem noise_eq (rnd : Nat) :
    noise rnd = (((rnd % 201 : Nat) : ℚ) - 100) / 2 := by
  unfold noise
  rw [Int.cast_sub, Int.cast_natCast]
  norm_num
  ring

/-- C16. For every value returned by `rand()`, the noise term lies in
`[-50, 50]` and is an integer multiple of `0.5`; every multiple `k * 0.5` with
`-100 ≤ k ≤ 100` is produced, so the noise takes exactly 201 values. -/
theorem noise_range_and_values :
    (∀ rnd : Nat, -50 ≤ noise rnd ∧ noise rnd ≤ 50 ∧
      ∃ k : Int, -100 ≤ k ∧ k ≤ 100 ∧ noise rnd = (k : ℚ) * (1 / 2)) ∧
    (∀ k : Int, -100 ≤ k → k ≤ 100 → ∃ rnd : Nat, rnd ≤ 200 ∧ noise rnd = (k : ℚ) * (1 / 2)) ∧
    (∀ r1 r2 : Nat, noise r1 = noise r2 ↔ r1 % 201 = r2 % 201) ∧
    ((Finset.range 201).image noise).card = 201 ∧
    (∀ rnd : Nat, noise rnd ∈ (Finset.range 201).image noise) := by
  have hinj : ∀ r1 r2 : Nat, noise r1 = noise r2 ↔ r1 % 201 = r2 % 201 := by
    intro r1 r2
    rw [noise_eq, noise_eq]
    constructor
    · intro h
      have : ((r1 % 201 : Nat) : ℚ) = ((r2 % 201 : Nat) : ℚ) := by linarith
      exact_mod_cast this
    · intro h
      rw [h]
  refine ⟨?_, ?_, hinj, ?_, ?_⟩
  · intro rnd
    have hlt : rnd % 201 < 201 := Nat.mod_lt _ (by decide)
    have h1 : ((rnd % 201 : Nat) : ℚ) ≤ 200 := by
      have : rnd % 201 ≤ 200 := by omega
      exact_mod_cast this
    have h0 : (0 : ℚ) ≤ ((rnd % 201 : Nat) : ℚ) := Nat.cast_nonneg _
    refine ⟨by rw [noise_eq]; linarith, by rw [noise_eq]; linarith,
      ((rnd % 201 : Nat) : Int) - 100, by omega, by omega, ?_⟩
    unfold noise
    rfl
  · intro k hk0 hk1
    refine ⟨(k + 100).toNat, by omega, ?_⟩
    have hm : (k + 100).toNat % 201 = (k + 100).toNat := Nat.mod_eq_of_lt (by omega)
    have hc : (((k + 100).toNat : Nat) : Int) = k + 100 := Int.toNat_of_nonneg (by omega)
    unfold noise
    rw [hm, hc]
    push_cast
    ring
  · rw [Finset.card_image_of_injOn, Finset.card_range]
    intro a ha b hb hab
    have ha' : a < 201 := by simpa using ha
    have hb' : b < 201 := by simpa using hb
    have := (hinj a b).mp hab
    rw [Nat.mod_eq_of_lt ha', Nat.mod_eq_of_lt hb'] at this
    exact this
  · intro rnd
    rw [Finset.mem_image]
    exact ⟨rnd % 201, by simpa using Nat.mod_lt rnd (by decide : 0 < 201),
      (hinj _ _).mpr (by simp)⟩

/-! ## Weights of the noise outcomes -/

/-- The number of values of `0 .. rand_max` with a given residue modulo 201. -/
theorem noise_preimages_eq (rand_max c : Nat) (hc : c < 201) :
    noise_preimages rand_max c =
      (rand_max + 1) / 201 + (if c < (rand_max + 1) % 201 then 1 else 0) := by
  have h := Nat.count_modEq_card (rand_max + 1) (by decide : 0 < 201) c
  rw [Nat.mod_eq_of_lt hc] at h
  rw [← h]
  unfold noise_preimages
  generalize rand_max + 1 = n
  induction n with
  | zero => simp
  | succ n ih => simp only [Nat.count_succ, ih, Nat.ModEq, Nat.mod_eq_of_lt hc]

/-- C17, as stated, fails: with `RAND_MAX = 2^31 - 1` the residue 0 has one
more preimage than the residue 200, so the outcomes are not equally likely. -/
theorem noise_preimages_not_equal :
    noise_preimages (2 ^ 31 - 1) 0 = 10683999 ∧ noise_preimages (2 ^ 31 - 1) 200 = 10683998 ∧
    ¬ (∀ c d : Nat, c < 201 → d < 201 →
        noise_preimages (2 ^ 31 - 1) c = noise_preimages (2 ^ 31 - 1) d) := by
  have h0 : noise_preimages (2 ^ 31 - 1) 0 = 10683999 := by
    rw [noise_preimages_eq _ _ (by decide)]; decide
  have h200 : noise_preimages (2 ^ 31 - 1) 200 = 10683998 := by
    rw [noise_preimages_eq _ _ (by decide)]; decide
  refine ⟨h0, h200, ?_⟩
  intro h
  have := h 0 200 (by decide) (by decide)
  rw [h0, h200] at this
  exact absurd this (by decide)

/-- C17, amended. For every `RAND_MAX`, the numbers of preimages of two
residues differ by at most one; with `RAND_MAX = 2^31 - 1` the residues
`0 .. 49` have 10683999 preimages each and the residues `50 .. 200` have
10683998 each. -/
theorem noise_preimages_nearly_equal (rand_max c d : Nat) (hc : c < 201) (hd : d < 201) :
    noise_preimages rand_max c ≤ noise_preimages rand_max d + 1 ∧
    noise_preimages rand_max d ≤ noise_preimages rand_max c + 1 ∧
    noise_preimages (2 ^ 31 - 1) c = (if c < 50 then 10683999 else 10683998) := by
  rw [noise_preimages_eq _ _ hc, noise_preimages_eq _ _ hd, noise_preimages_eq _ _ hc]
  refine ⟨?_, ?_, ?_⟩
  · split <;> split <;> omega
  · split <;> split <;> omega
  · have e1 : (2 ^ 31 - 1 + 1) / 201 = 10683998 := by decide
    have e2 : (2 ^ 31 - 1 + 1) % 201 = 50 := by decide
    rw [e1, e2]
    split <;> rfl

theorem noise_preimages_nearly_equal_witness :
    (7 : Nat) < 201 ∧ (150 : Nat) < 201 ∧
    noise_preimages 32767 7 ≤ noise_preimages 32767 150 + 1 ∧
    noise_preimages 32767 150 ≤ noise_preimages 32767 7 + 1 :=
  ⟨by decide, by decide,
    (noise_preimages_nearly_equal 32767 7 150 (by decide) (by decide)).1,
    (noise_preimages_nearly_equal 32767 7 150 (by decide) (by decide)).2.1⟩

/-! ## Pipeline driver -/

/-- The high byte of a value is its quotient by 256. -/
theorem shiftRight_eight (x : Nat) : x >>> 8 = x / 256 := by
  rw [Nat.shiftRight_eq_div_pow]

/-- The low byte of a value is its remainder modulo 256. -/
theorem and_ff (x : Nat) : x &&& 0xFF = x % 256 := by
  have h := Nat.and_pow_two_sub_one_eq_mod x 8
  exact h

/-- The converted value always fits 16 bits. -/
theorem double_to_u16_lt (x : ℚ) : double_to_u16 x < 2 ^ 16 := by
  unfold double_to_u16
  generalize (if 0 ≤ x then ⌊x⌋ else ⌈x⌉) = z
  have h1 : 0 ≤ z % 2 ^ 16 := Int.emod_nonneg _ (by norm_num)
  have h2 : z % 2 ^ 16 < 2 ^ 16 := Int.emod_lt_of_pos _ (by norm_num)
  omega

/-- The duty of any reading lies in `[0, 100]`. -/
theorem adc_to_duty_bounds (r : Nat) : 0 ≤ adc_to_duty r ∧ adc_to_duty r ≤ 100 := by
  rcases Nat.lt_or_ge r 4095 with h | h
  · rw [adc_to_duty_below r h]
    omega
  · rw [adc_to_duty_above r h]
    omega

/-- The duty exceeds 80 exactly from the reading 3317 on. -/
theorem adc_to_duty_gt_80_iff (f : Nat) : 80 < adc_to_duty f ↔ 3317 ≤ f := by
  rcases Nat.lt_or_ge f 4095 with h | h
  · rw [adc_to_duty_below f h]
    omega
  · rw [adc_to_duty_above f h]
    omega

/-- The log after one cycle: the status line, then the advisory when the duty exceeds 80. -/
theorem loop_body_log_eq (fmt : ℚ → Nat → Nat → Int → Nat → List Char) (sine : ℚ → ℚ)
    (d : driver_t) (rnd : Nat) :
    (loop_body fmt sine d rnd).log =
      log_push_all d.log
        (if 80 < (cycle_values fmt d (simulate_adc sine d.t rnd)).duty
          then [(cycle_values fmt d (simulate_adc sine d.t rnd)).line, ADVISORY]
          else [(cycle_values fmt d (simulate_adc sine d.t rnd)).line]) := by
  unfold loop_body
  simp only [gt_iff_lt]
  split <;> simp [log_push_all]

/-- C13. For a 16-bit raw reading, the frame is the four bytes
`[raw >> 8, raw & 0xFF, duty, filtered & 0xFF]` in that order, none changed by
the narrowing to a byte when the duty is in `[0, 100]`; the raw reading is
`256 * byte0 + byte1`; and in a cycle the checksum is `crc8` of that frame. -/
theorem frame_bytes (raw : Nat) (hraw : raw < 2 ^ 16) :
    (∀ (duty : Int) (filt_u : Nat), 0 ≤ duty → duty ≤ 100 →
      frame raw duty filt_u = [raw >>> 8, raw &&& 0xFF, duty.toNat, filt_u &&& 0xFF] ∧
      ((duty.toNat : Nat) : Int) = duty) ∧
    (∀ (duty : Int) (filt_u : Nat), ∃ b0 b1 b2 b3 : Nat,
      frame raw duty filt_u = [b0, b1, b2, b3] ∧ b0 < 256 ∧ b1 < 256 ∧ b2 < 256 ∧ b3 < 256 ∧
      256 * b0 + b1 = raw) ∧
    (∀ (fmt : ℚ → Nat → Nat → Int → Nat → List Char) (d : driver_t),
      (cycle_values fmt d raw).msg =
        [raw >>> 8, raw &&& 0xFF, ((cycle_values fmt d raw).duty).toNat,
          (cycle_values fmt d raw).filt_u &&& 0xFF] ∧
      (cycle_values fmt d raw).c = crc8 (cycle_values fmt d raw).msg ∧
      (cycle_values fmt d raw).line =
        fmt d.t raw (cycle_values fmt d raw).filt_u (cycle_values fmt d raw).duty
          (crc8 (cycle_values fmt d raw).msg)) := by
  have hA : ∀ (duty : Int) (filt_u : Nat), 0 ≤ duty → duty ≤ 100 →
      frame raw duty filt_u = [raw >>> 8, raw &&& 0xFF, duty.toNat, filt_u &&& 0xFF] ∧
      ((duty.toNat : Nat) : Int) = duty := by
    intro duty filt_u h0 h1
    have e0 : (raw >>> 8) % 256 = raw >>> 8 := by
      rw [shiftRight_eight]; omega
    have e1 : (raw &&& 0xFF) % 256 = raw &&& 0xFF := by
      rw [and_ff]; omega
    have e2 : duty % 256 = duty := Int.emod_eq_of_lt h0 (by omega)
    have e3 : (filt_u &&& 0xFF) % 256 = filt_u &&& 0xFF := by
      rw [and_ff]; omega
    unfold frame
    rw [e0, e1, e2, e3]
    exact ⟨rfl, Int.toNat_of_nonneg h0⟩
  refine ⟨hA, ?_, ?_⟩
  · intro duty filt_u
    refine ⟨(raw >>> 8) % 256, (raw &&& 0xFF) % 256, (duty % 256).toNat,
      (filt_u &&& 0xFF) % 256, rfl, ?_, ?_, ?_, ?_, ?_⟩
    · omega
    · omega
    · have h1 : 0 ≤ duty % 256 := Int.emod_nonneg _ (by norm_num)
      have h2 : duty % 256 < 256 := Int.emod_lt_of_pos _ (by norm_num)
      omega
    · omega
    · rw [shiftRight_eight, and_ff]; omega
  · intro fmt d
    obtain ⟨h0, h1⟩ := adc_to_duty_bounds (double_to_u16 (movavg_push d.ma raw).2)
    exact ⟨(hA _ _ h0 h1).1, rfl, rfl⟩

theorem frame_bytes_witness :
    (0xABC : Nat) < 2 ^ 16 ∧
    ∃ b0 b1 b2 b3 : Nat,
      frame 0xABC 81 0x123 = [b0, b1, b2, b3] ∧ b0 < 256 ∧ b1 < 256 ∧ b2 < 256 ∧ b3 < 256 ∧
      256 * b0 + b1 = 0xABC :=
  ⟨by decide, (frame_bytes 0xABC (by decide)).2.1 81 0x123⟩

/-- C15. In each cycle the log receives the formatted status line, followed
by the advisory line exactly when the duty of that cycle exceeds 80: two
entries are pushed when `duty > 80` and one otherwise. The advisory text is
short enough to be stored whole. -/
theorem loop_body_pushes (fmt : ℚ → Nat → Nat → Int → Nat → List Char) (sine : ℚ → ℚ)
    (d : driver_t) (rnd : Nat) :
    (loop_body fmt sine d rnd).log =
      log_push_all d.log
        (if 80 < (cycle_values fmt d (simulate_adc sine d.t rnd)).duty
          then [(cycle_values fmt d (simulate_adc sine d.t rnd)).line, ADVISORY]
          else [(cycle_values fmt d (simulate_adc sine d.t rnd)).line]) ∧
    (if 80 < (cycle_values fmt d (simulate_adc sine d.t rnd)).duty
      then [(cycle_values fmt d (simulate_adc sine d.t rnd)).line, ADVISORY]
      else [(cycle_values fmt d (simulate_adc sine d.t rnd)).line]).length =
      (if 80 < (cycle_values fmt d (simulate_adc sine d.t rnd)).duty then 2 else 1) ∧
    cstr ADVISORY = "  -> Actuator: HIGH power (example)".toList ∧
    (cstr ADVISORY).take 127 = cstr ADVISORY := by
  refine ⟨loop_body_log_eq fmt sine d rnd, ?_, by decide, by decide⟩
  split <;> rfl

/-- C20. The duty of a filtered reading exceeds 80 exactly when the reading
is at least 3317 (for every reading, 16-bit ones included), so a cycle pushes
the advisory line exactly when its truncated filtered reading is at least 3317. -/
theorem advisory_threshold :
    (∀ f : Nat, 80 < adc_to_duty f ↔ 3317 ≤ f) ∧
    adc_to_duty 3316 = 80 ∧ adc_to_duty 3317 = 81 ∧
    (∀ (fmt : ℚ → Nat → Nat → Int → Nat → List Char) (sine : ℚ → ℚ) (d : driver_t) (rnd : Nat),
      (cycle_values fmt d (simulate_adc sine d.t rnd)).duty =
        adc_to_duty (cycle_values fmt d (simulate_adc sine d.t rnd)).filt_u ∧
      (loop_body fmt sine d rnd).log =
        log_push_all d.log
          (if 3317 ≤ (cycle_values fmt d (simulate_adc sine d.t rnd)).filt_u
            then [(cycle_values fmt d (simulate_adc sine d.t rnd)).line, ADVISORY]
            else [(cycle_values fmt d (simulate_adc sine d.t rnd)).line])) := by
  refine ⟨adc_to_duty_gt_80_iff, by decide, by decide, ?_⟩
  intro fmt sine d rnd
  refine ⟨rfl, ?_⟩
  rw [loop_body_log_eq]
  have h := adc_to_duty_gt_80_iff (cycle_values fmt d (simulate_adc sine d.t rnd)).filt_u
  have e : (cycle_values fmt d (simulate_adc sine d.t rnd)).duty =
      adc_to_duty (cycle_values fmt d (simulate_adc sine d.t rnd)).filt_u := rfl
  rw [e]
  by_cases h3 : 3317 ≤ (cycle_values fmt d (simulate_adc sine d.t rnd)).filt_u
  · rw [if_pos h3, if_pos (h.mpr h3)]
  · rw [if_neg h3, if_neg (fun hh => h3 (h.mp hh))]

/-! ## Moving-average filter: the running sum and the range of the output -/

/-- Overwriting one entry changes the sum by the difference of the entries. -/
theorem sum_set_eq (l : List ℚ) (i : Nat) (x : ℚ) (h : i < l.length) :
    (l.set i x).sum = l.sum - l.getD i 0 + x := by
  induction l generalizing i with
  | nil => simp at h
  | cons a l ih =>
    cases i with
    | zero => simp; ring
    | succ i =>
      simp only [List.length_cons, Nat.add_lt_add_iff_right] at h
      simp only [List.set_cons_succ, List.sum_cons, ih i h, List.getD_cons_succ]
      ring

/-- Writing the entry after a prefix extends the prefix by that entry. -/
theorem take_succ_set (l : List ℚ) (i : Nat) (x : ℚ) (h : i < l.length) :
    (l.set i x).take (i + 1) = l.take i ++ [x] := by
  induction l generalizing i with
  | nil => simp at h
  | cons a l ih =>
    cases i with
    | zero => simp
    | succ i =>
      simp only [List.length_cons, Nat.add_lt_add_iff_right] at h
      simp [ih i h]

/-- After any run of pushes, `sum` is the sum of the filled slots of the buffer. -/
theorem movavg_sum_filled (xs : List ℚ) :
    (movavg_push_all movavg_init xs).sum =
      ((movavg_push_all movavg_init xs).buf.take (movavg_push_all movavg_init xs).filled).sum := by
  induction xs using List.reverseRecOn with
  | nil => simp [movavg_push_all, movavg_init]
  | append_singleton xs x ih =>
    obtain ⟨hf, hi, hl, _, _⟩ := movavg_push_all_state xs
    rw [movavg_push_all_snoc]
    generalize movavg_push_all movavg_init xs = m at ih hf hi hl
    unfold movavg_push
    simp only [FILTER_LEN]
    split
    · next h =>
      have hn : xs.length < 8 := by omega
      have e1 : m.idx = m.filled := by omega
      simp only [e1]
      rw [take_succ_set _ _ _ (by omega), List.sum_append, ← ih]
      simp
    · next h =>
      have hn : m.filled = 8 := by omega
      simp only [hn] at ih ⊢
      have hidx : m.idx < m.buf.length := by omega
      rw [List.take_of_length_le (by rw [List.length_set]; omega), sum_set_eq _ _ _ hidx,
        ← List.take_of_length_le (Nat.le_of_eq hl) (l := m.buf), ← ih]

/-- C14. After any run of `n` pushes into a cleared filter: `filled` is
`min n 8`; the cursor is `n mod 8`, below 8; `sum` is the sum of the filled
slots of the buffer; those slots hold exactly the last `min n 8` values
pushed, each in the slot of its rank modulo 8; and `sum` is their sum. -/
theorem movavg_state_invariant (xs : List ℚ) :
    (movavg_push_all movavg_init xs).filled = min xs.length 8 ∧
    (movavg_push_all movavg_init xs).idx = xs.length % 8 ∧
    (movavg_push_all movavg_init xs).idx < 8 ∧
    (movavg_push_all movavg_init xs).buf.length = 8 ∧
    (movavg_push_all movavg_init xs).sum =
      ((movavg_push_all movavg_init xs).buf.take (movavg_push_all movavg_init xs).filled).sum ∧
    (movavg_push_all movavg_init xs).sum = (xs.drop (xs.length - min xs.length 8)).sum ∧
    (∀ j (hj : j < xs.length), xs.length ≤ j + 8 →
      (movavg_push_all movavg_init xs).buf[j % 8]? = some xs[j]) ∧
    (∀ i, i < (movavg_push_all movavg_init xs).filled →
      ∃ j, ∃ hj : j < xs.length, xs.length ≤ j + 8 ∧ j % 8 = i ∧
        (movavg_push_all movavg_init xs).buf[i]? = some xs[j]) := by
  obtain ⟨hf, hi, hl, hs, hb⟩ := movavg_push_all_state xs
  refine ⟨hf, hi, by omega, hl, movavg_sum_filled xs, ?_, hb, ?_⟩
  · rw [hs]
    congr 2
    omega
  · intro i hlt
    rw [hf] at hlt
    rcases Nat.lt_or_ge xs.length 8 with h | h
    · have hi' : i < xs.length := by omega
      refine ⟨i, hi', by omega, by omega, ?_⟩
      have := hb i hi' (by omega)
      rwa [Nat.mod_eq_of_lt (by omega)] at this
    · have hj : xs.length - 8 + (i + 8 - (xs.length - 8) % 8) % 8 < xs.length := by omega
      have hm : (xs.length - 8 + (i + 8 - (xs.length - 8) % 8) % 8) % 8 = i := by omega
      refine ⟨_, hj, by omega, hm, ?_⟩
      have := hb _ hj (by omega)
      rwa [hm] at this

/-- The sum of a list lies between its length times a lower and an upper bound of its entries. -/
theorem sum_bounds (l : List ℚ) (lo hi : ℚ) (h : ∀ x ∈ l, lo ≤ x ∧ x ≤ hi) :
    lo * l.length ≤ l.sum ∧ l.sum ≤ hi * l.length := by
  induction l with
  | nil => simp
  | cons a l ih =>
    obtain ⟨h1, h2⟩ := ih (fun x hx => h x (List.mem_cons_of_mem a hx))
    obtain ⟨ha1, ha2⟩ := h a (List.mem_cons_self a l)
    simp only [List.sum_cons, List.length_cons, Nat.cast_add, Nat.cast_one]
    constructor <;> linarith

/-- The value returned by the `n`-th push lies between any two bounds of the
values pushed so far. -/
theorem movavg_returns_between (xs : List ℚ) (n : Nat) (h1 : 1 ≤ n) (h2 : n ≤ xs.length)
    (lo hi : ℚ) (h : ∀ x ∈ xs.take n, lo ≤ x ∧ x ≤ hi) :
    ∃ y, (movavg_returns movavg_init xs)[n - 1]? = some y ∧ lo ≤ y ∧ y ≤ hi := by
  refine ⟨_, movavg_returns_nth xs n h1 h2, ?_⟩
  have hlen : ((xs.take n).drop (n - 8)).length = min n 8 := by
    rw [List.length_drop, List.length_take]; omega
  obtain ⟨hs1, hs2⟩ := sum_bounds ((xs.take n).drop (n - 8)) lo hi
    (fun x hx => h x (List.mem_of_mem_drop hx))
  rw [hlen] at hs1 hs2
  have hpos : (0 : ℚ) < ((min n 8 : Nat) : ℚ) := by
    have : 0 < min n 8 := by omega
    exact_mod_cast this
  exact ⟨(le_div_iff₀ hpos).mpr hs1, (div_le_iff₀ hpos).mpr hs2⟩

/-- The least and the greatest entry of a nonempty list bound its entries. -/
theorem list_min_max_bounds (l : List ℚ) (hne : l ≠ []) :
    ∃ m M : ℚ, l.minimum = (m : WithTop ℚ) ∧ l.maximum = (M : WithBot ℚ) ∧
      ∀ x ∈ l, m ≤ x ∧ x ≤ M := by
  obtain ⟨m, hm⟩ := WithTop.ne_top_iff_exists.mp (List.minimum_ne_top_of_ne_nil hne)
  obtain ⟨M, hM⟩ := WithBot.ne_bot_iff_exists.mp (List.maximum_ne_bot_of_ne_nil hne)
  refine ⟨m, M, hm.symm, hM.symm, ?_⟩
  intro x hx
  have h1 := List.minimum_le_of_mem' hx
  have h2 := List.le_maximum_of_mem' hx
  rw [← hm] at h1
  rw [← hM] at h2
  exact ⟨WithTop.coe_le_coe.mp h1, WithBot.coe_le_coe.mp h2⟩

/-- C19. Every value returned by `movavg_push` lies between the minimum and
the maximum of the values pushed so far, hence between any two bounds of
them; when the readings pushed so far are all in `[0, 4095]`, the filtered
value is in `[0, 4095]`, its conversion to `uint16_t` is its integer part, at
most 4095, and the duty computed from it is in `[0, 100]`. -/
theorem movavg_returns_in_range (xs : List ℚ) (n : Nat) (h1 : 1 ≤ n) (h2 : n ≤ xs.length) :
    ∃ y, (movavg_returns movavg_init xs)[n - 1]? = some y ∧
      (xs.take n).minimum ≤ (y : WithTop ℚ) ∧ (y : WithBot ℚ) ≤ (xs.take n).maximum ∧
      (∀ lo hi : ℚ, (∀ x ∈ xs.take n, lo ≤ x ∧ x ≤ hi) → lo ≤ y ∧ y ≤ hi) ∧
      ((∀ x ∈ xs.take n, 0 ≤ x ∧ x ≤ 4095) →
        0 ≤ y ∧ y ≤ 4095 ∧ double_to_u16 y = ⌊y⌋.toNat ∧ double_to_u16 y ≤ 4095 ∧
        0 ≤ adc_to_duty (double_to_u16 y) ∧ adc_to_duty (double_to_u16 y) ≤ 100) := by
  have hb : ∀ lo hi : ℚ, (∀ x ∈ xs.take n, lo ≤ x ∧ x ≤ hi) →
      lo ≤ ((xs.take n).drop (n - 8)).sum / ((min n 8 : Nat) : ℚ) ∧
      ((xs.take n).drop (n - 8)).sum / ((min n 8 : Nat) : ℚ) ≤ hi := by
    intro lo hi h
    obtain ⟨y, hy, hlo, hhi⟩ := movavg_returns_between xs n h1 h2 lo hi h
    rw [movavg_returns_nth xs n h1 h2, Option.some.injEq] at hy
    rw [hy]
    exact ⟨hlo, hhi⟩
  have hne : xs.take n ≠ [] := by
    intro he
    have := congrArg List.length he
    rw [List.length_take, List.length_nil] at this
    omega
  obtain ⟨m, M, hm, hM, hmM⟩ := list_min_max_bounds (xs.take n) hne
  obtain ⟨hlo, hhi⟩ := hb m M hmM
  refine ⟨_, movavg_returns_nth xs n h1 h2, ?_, ?_, hb, ?_⟩
  · rw [hm]
    exact WithTop.coe_le_coe.mpr hlo
  · rw [hM]
    exact WithBot.coe_le_coe.mpr hhi
  · intro h
    obtain ⟨h0, h4⟩ := hb 0 4095 h
    obtain ⟨hd0, hd1⟩ := adc_to_duty_bounds
      (double_to_u16 (((xs.take n).drop (n - 8)).sum / ((min n 8 : Nat) : ℚ)))
    exact ⟨h0, h4, (double_to_u16_eq_floor _ h0 (by linarith)).1, double_to_u16_le _ h0 h4,
      hd0, hd1⟩

theorem movavg_returns_in_range_witness :
    1 ≤ 2 ∧ 2 ≤ [100, 4000, (250 : ℚ)].length ∧
    ∃ y : ℚ, (movavg_returns movavg_init [100, 4000, 250])[2 - 1]? = some y ∧
      ([100, 4000, (250 : ℚ)].take 2).minimum ≤ (y : WithTop ℚ) ∧
      (y : WithBot ℚ) ≤ ([100, 4000, (250 : ℚ)].take 2).maximum :=
  ⟨by decide, by decide,
    (movavg_returns_in_range [100, 4000, 250] 2 (by decide) (by decide)).imp
      (fun _ h => ⟨h.1, h.2.1, h.2.2.1⟩)⟩

/-! ## CRC-8: single-bit errors -/

set_option maxRecDepth 100000 in
/-- On bytes, one pass of the inner loop can be undone: the bit shifted out is
the low bit of the result. -/
theorem crc8_bit_undo (c : Nat) (hc : c < 256) :
    (if crc8_bit c % 2 = 1 then (crc8_bit c ^^^ 0x107) / 2 else crc8_bit c / 2) = c := by
  revert c
  decide

/-- On bytes, any number of passes of the inner loop is injective. -/
theorem crc8_bit_iterate_inj (k c d : Nat) (hc : c < 256) (hd : d < 256)
    (h : crc8_bit^[k] c = crc8_bit^[k] d) : c = d := by
  induction k with
  | zero => exact h
  | succ k ih =>
    rw [Function.iterate_succ_apply', Function.iterate_succ_apply'] at h
    have h1 := crc8_bit_undo _ (crc8_bit_iterate k c hc).1
    have h2 := crc8_bit_undo _ (crc8_bit_iterate k d hd).1
    rw [h] at h1
    exact ih (h1.symm.trans h2)

/-- Taking in one byte keeps the register a byte. -/
theorem crc8_byte_lt (c x : Nat) (hc : c < 256) (hx : x < 256) : crc8_byte c x < 256 :=
  (crc8_bit_iterate 8 (c ^^^ x) (Nat.xor_lt_two_pow (n := 8) hc hx)).1

/-- Two distinct registers stay distinct whatever bytes are taken in next. -/
theorem crc8_fold_ne (post : List Nat) (hp : ∀ x ∈ post, x < 256) (c d : Nat) (hc : c < 256)
    (hd : d < 256) (hne : c ≠ d) : post.foldl crc8_byte c ≠ post.foldl crc8_byte d := by
  induction post generalizing c d with
  | nil => exact hne
  | cons x post ih =>
    have hx : x < 256 := hp x (List.mem_cons_self x post)
    simp only [List.foldl_cons]
    apply ih (fun y hy => hp y (List.mem_cons_of_mem x hy)) _ _ (crc8_byte_lt c x hc hx)
      (crc8_byte_lt d x hd hx)
    intro he
    unfold crc8_byte at he
    have := crc8_bit_iterate_inj 8 _ _ (Nat.xor_lt_two_pow (n := 8) hc hx)
      (Nat.xor_lt_two_pow (n := 8) hd hx) he
    exact hne (Nat.xor_left_inj.mp this)

/-- The checksum of a sequence split around one of its bytes. -/
theorem crc8_split (pre : List Nat) (x : Nat) (post : List Nat) :
    crc8 (pre ++ x :: post) = post.foldl crc8_byte (crc8_byte (crc8 pre) x) := by
  simp [crc8, List.foldl_append]

/-- C18. For every byte sequence and every bit of every byte of it, flipping
that one bit changes the value `crc8` returns; the flipped sequence is again
a byte sequence of the same length. -/
theorem crc8_detects_bit_flip (data : List Nat) (h : ∀ x ∈ data, x < 256) (i b : Nat)
    (hi : i < data.length) (hb : b < 8) :
    crc8 (flip_bit data i b) ≠ crc8 data ∧
    (∀ x ∈ flip_bit data i b, x < 256) ∧
    (flip_bit data i b).length = data.length ∧
    (flip_bit data i b)[i]? = some (data[i] ^^^ 2 ^ b) ∧
    data[i] ^^^ 2 ^ b ≠ data[i] := by
  have hx : data[i] < 256 := h _ (List.getElem_mem hi)
  have hpow : 2 ^ b < 2 ^ 8 := Nat.pow_lt_pow_right (by decide) hb
  have hy : data[i] ^^^ 2 ^ b < 256 := Nat.xor_lt_two_pow (n := 8) hx hpow
  have hne : data[i] ^^^ 2 ^ b ≠ data[i] := by
    intro he
    have : data[i] ^^^ 2 ^ b = data[i] ^^^ 0 := by rw [he]; simp
    have := Nat.xor_right_inj.mp this
    have hpos : 0 < 2 ^ b := Nat.two_pow_pos b
    omega
  have hflip : flip_bit data i b = data.take i ++ (data[i] ^^^ 2 ^ b) :: data.drop (i + 1) := by
    unfold flip_bit
    rw [List.set_eq_take_append_cons_drop, if_pos hi, List.getD_eq_getElem _ _ hi]
  have hdata : data = data.take i ++ data[i] :: data.drop (i + 1) := by
    rw [← List.drop_eq_getElem_cons hi, List.take_append_drop]
  have hpre : ∀ x ∈ data.take i, x < 256 := fun x hx => h x (List.mem_of_mem_take hx)
  have hpost : ∀ x ∈ data.drop (i + 1), x < 256 := fun x hx => h x (List.mem_of_mem_drop hx)
  have hc : crc8 (data.take i) < 256 := (crc8_congr _ hpre).1
  refine ⟨?_, ?_, ?_, ?_, hne⟩
  · have e1 : crc8 (flip_bit data i b) =
        (data.drop (i + 1)).foldl crc8_byte (crc8_byte (crc8 (data.take i)) (data[i] ^^^ 2 ^ b)) := by
      rw [hflip, crc8_split]
    have e2 : crc8 data =
        (data.drop (i + 1)).foldl crc8_byte (crc8_byte (crc8 (data.take i)) data[i]) := by
      have := crc8_split (data.take i) data[i] (data.drop (i + 1))
      rw [← hdata] at this
      exact this
    rw [e1, e2]
    apply crc8_fold_ne _ hpost _ _ (crc8_byte_lt _ _ hc hy) (crc8_byte_lt _ _ hc hx)
    intro he
    unfold crc8_byte at he
    have := crc8_bit_iterate_inj 8 _ _ (Nat.xor_lt_two_pow (n := 8) hc hy)
      (Nat.xor_lt_two_pow (n := 8) hc hx) he
    exact hne (Nat.xor_right_inj.mp this)
  · intro x hx'
    rw [hflip] at hx'
    rcases List.mem_append.mp hx' with h1 | h1
    · exact hpre x h1
    · rcases List.mem_cons.mp h1 with h2 | h2
      · rw [h2]; exact hy
      · exact hpost x h2
  · unfold flip_bit
    rw [List.length_set]
  · unfold flip_bit
    rw [List.getElem?_set_self hi, List.getD_eq_getElem _ _ hi]

theorem crc8_detects_bit_flip_witness :
    (∀ x ∈ [0x0A, 0xBC, 0x51, (0x23 : Nat)], x < 256) ∧ 2 < [0x0A, 0xBC, 0x51, (0x23 : Nat)].length ∧
    5 < 8 ∧ crc8 (flip_bit [0x0A, 0xBC, 0x51, 0x23] 2 5) ≠ crc8 [0x0A, 0xBC, 0x51, 0x23] :=
  ⟨by decide, by decide, by decide,
    (crc8_detects_bit_flip [0x0A, 0xBC, 0x51, 0x23] (by decide) 2 5 (by decide) (by decide)).1⟩

end EmbeddedController
